import Mathlib

/-!
# go-vernam: an index-space XOR substitution cipher

Shallow embedding of `src/vernam.go` and the properties of its key model
(`Validate`, `RuneToIndex`, `IndexToRune`), its transform (`EncodeStream`,
`DecodeStream`) and its driver (`main`).

Modelling conventions.

* A Go `rune` that the program can hold is a Unicode scalar value: the alphabet
  is built by `ReadKey` from JSON strings and the input is decoded by
  `bufio.Reader.ReadRune`, which yields U+FFFD for a malformed byte. It is a
  `Char`.
* A Go `string` built by `encoding/json` is valid UTF-8; it is a `String`.
  `len(s)` is its number of bytes and `for i, c := range s` yields the byte
  offset of every code point together with the code point.
* A Go `int` is an `Int`; `^` is `Int.xor`. No operation of the program can
  leave the range of a machine word: the only arithmetic is exclusive or.
* A Go `error` is `Option GoError`, `none` being `nil`.
* `bufio.Reader` is the sequence of results its `ReadRune` will deliver, after
  which it reports `io.EOF`. `bufio.Writer` is the runes it accepted, split
  into those still in its buffer of 4096 bytes and those delivered to the
  underlying stream, by `Flush` or by `WriteRune` finding the buffer full.
  Writes to the underlying stream succeed.
* A run-time panic (index out of range) is an explicit outcome.
-/

namespace Vernam

/-! ## Values -/

/-- Go `rune`, restricted to Unicode scalar values. -/
abbrev Rune := Char

/-- Go `error` values: the sentinel `io.EOF`, and every other error, known by
its message (`errors.New(text)`). -/
inductive GoError where
  | EOF : GoError
  | New (text : String) : GoError
  deriving DecidableEq

/-- The line terminator, Go `'\n'`. -/
def newline : Rune := Char.ofNat 10

/-- The zero value of `rune`. -/
def zeroRune : Rune := Char.ofNat 0

/-- The record `type VernKey struct { alphabet []rune; key string }`. -/
structure VernKey where
  alphabet : List Rune
  key : String
  deriving DecidableEq

/-- Go `len(s)` for a string: the number of bytes of its UTF-8 encoding. -/
def strLen (s : List Char) : Nat :=
  (s.map Char.utf8Size).sum

/-- Go `for i, c := range s`: every code point of `s` with the byte offset at
which it starts; `off` is the offset of the first one. -/
def rangeString : List Char → Nat → List (Nat × Rune)
  | [], _ => []
  | c :: cs, off => (off, c) :: rangeString cs (off + c.utf8Size)

/-! ## The key model -/

/-- The key set of a Go `map[rune]void`. -/
abbrev RuneMap := List Rune

/-- The assignment `m[r] = item`. -/
def RuneMap.store (m : RuneMap) (r : Rune) : RuneMap :=
  if r ∈ m then m else r :: m

/-- The lookup `_, ok := m[r]`. -/
def RuneMap.has (m : RuneMap) (r : Rune) : Bool :=
  decide (r ∈ m)

/-- The message of the error `Validate` returns for the key member `c`. -/
def keyMemberError (c : Rune) : GoError :=
  GoError.New ("key member '" ++ String.singleton c ++ "' is out of the alphabet")

/-- The message of the error `RuneToIndex` returns for the letter `c`. -/
def letterError (c : Rune) : GoError :=
  GoError.New ("letter '" ++ String.singleton c ++ "' is out of alphabet")

/-- The second loop of `Validate`: the first key member missing from the map
ends the function with an error. -/
def validateLoop (alphRunes : RuneMap) : List (Nat × Rune) → Option GoError
  | [] => none
  | (_, keyMember) :: rest =>
    if !alphRunes.has keyMember then some (keyMemberError keyMember)
    else validateLoop alphRunes rest

/-- Method `func (vernKey *VernKey) Validate() error`. -/
def Validate (vernKey : VernKey) : Option GoError :=
  let alphRunes : RuneMap := vernKey.alphabet.foldl RuneMap.store []
  validateLoop alphRunes (rangeString vernKey.key.data 0)

/-- The loop of `RuneToIndex` over the letters from position `rune_i` on. -/
def runeToIndexLoop (rl : Rune) : List Rune → Int → Int × Option GoError
  | [], _ => (-1, some (letterError rl))
  | letter :: rest, rune_i =>
    if rl = letter then (rune_i, none) else runeToIndexLoop rl rest (rune_i + 1)

/-- Method `func (vernKey *VernKey) RuneToIndex(rl rune) (int, error)`. -/
def RuneToIndex (vernKey : VernKey) (rl : Rune) : Int × Option GoError :=
  runeToIndexLoop rl vernKey.alphabet 0

/-- Method `func (vernKey *VernKey) IndexToRune(index int) rune`; `none` is
the index-out-of-range panic of `vernKey.alphabet[index]`. -/
def IndexToRune (vernKey : VernKey) (index : Int) : Option Rune :=
  if 0 ≤ index then vernKey.alphabet.get? index.toNat else none

/-! ## Reading the key -/

/-- The two fields `ReadKey` takes from the decoded JSON object. -/
structure KeyMap where
  alphabet : List String
  key : String
  deriving DecidableEq

/-- The inner loop of `ReadKey`: the first code point of an entry, the zero
rune for an empty entry. -/
def firstRune (alphItem : String) : Rune :=
  match alphItem.data with
  | [] => zeroRune
  | c :: _ => c

/-- Function `ReadKey`, from the result of reading and decoding the file. -/
def ReadKey (decoded : Except GoError KeyMap) : Except GoError VernKey :=
  match decoded with
  | .error err => .error err
  | .ok keyMap => .ok { alphabet := keyMap.alphabet.map firstRune, key := keyMap.key }

/-! ## Streams -/

/-- One result of `reader.ReadRune()`: a rune, or a failure of the underlying
stream. -/
inductive ReadEvent where
  | rune (c : Rune) : ReadEvent
  | fail (err : GoError) : ReadEvent
  deriving DecidableEq

/-- The `bufio.Reader`: the results still to be delivered. -/
abbrev Reader := List ReadEvent

/-- The pair `(rune, error)` that `ReadRune` returns for an event. -/
def ReadEvent.result : ReadEvent → Rune × Option GoError
  | .rune c => (c, none)
  | .fail err => (zeroRune, some err)

/-- The `bufio.Writer`. -/
structure Writer where
  /-- Runes accepted by `WriteRune` and still in the buffer. -/
  buf : List Rune
  /-- Runes delivered to the underlying stream. -/
  out : List Rune
  /-- Number of calls of `Flush` by the program; the transfers `WriteRune`
  makes when the buffer is full are not counted. -/
  flushes : Nat
  deriving DecidableEq

/-- A new writer, `bufio.NewWriter(...)`. -/
def Writer.new : Writer := { buf := [], out := [], flushes := 0 }

/-- The size in bytes of the buffer of `bufio.NewWriter`. -/
def defaultBufSize : Nat := 4096

/-- Go `utf8.RuneSelf`: runes below it are single bytes. -/
def runeSelf : Nat := 128

/-- Go `utf8.UTFMax`: the longest encoding of a rune, in bytes. -/
def utfMax : Nat := 4

/-- Method `Available`: the bytes unused in the buffer. -/
def Writer.Available (w : Writer) : Nat :=
  defaultBufSize - strLen w.buf

/-- The transfer of the buffer to the underlying stream that `WriteRune`
makes when the buffer has no room. -/
def Writer.transfer (w : Writer) : Writer :=
  { w with buf := [], out := w.out ++ w.buf }

/-- Method `WriteRune`: a single-byte rune goes through `WriteByte`, which
empties a full buffer first; any other rune empties the buffer first when
fewer than `utf8.UTFMax` bytes are free. -/
def Writer.WriteRune (w : Writer) (c : Rune) : Writer :=
  if c.toNat < runeSelf then
    if w.Available ≤ 0 then { w.transfer with buf := w.transfer.buf ++ [c] }
    else { w with buf := w.buf ++ [c] }
  else
    if w.Available < utfMax then { w.transfer with buf := w.transfer.buf ++ [c] }
    else { w with buf := w.buf ++ [c] }

/-- Method `Flush`. -/
def Writer.Flush (w : Writer) : Writer :=
  { buf := [], out := w.out ++ w.buf, flushes := w.flushes + 1 }

/-- Everything the writer accepted, flushed or not. -/
def Writer.written (w : Writer) : List Rune := w.out ++ w.buf

/-- The writer after `WriteRune` of every rune of `ys`, in order. -/
def Writer.writeAll (w : Writer) (ys : List Rune) : Writer :=
  ys.foldl Writer.WriteRune w

/-- How a call ends: it returns an `error`, or it panics. -/
inductive Outcome where
  | returned (err : Option GoError) : Outcome
  | panicked : Outcome
  deriving DecidableEq

/-- The state a call of `EncodeStream` or `DecodeStream` leaves. -/
structure StreamResult where
  reader : Reader
  writer : Writer
  outcome : Outcome
  deriving DecidableEq

/-! ## The transform -/

/-- The first loop of `EncodeStream` and `DecodeStream`:
`index, _ := vernKey.RuneToIndex(keyRune); indexKey[keyIndex] = index`. -/
def fillIndexKey (vernKey : VernKey) : List (Nat × Rune) → List Int → List Int
  | [], indexKey => indexKey
  | (keyIndex, keyRune) :: rest, indexKey =>
    fillIndexKey vernKey rest (indexKey.set keyIndex (RuneToIndex vernKey keyRune).1)

/-- The offset sequence `indexKey` of `EncodeStream`: `make([]int, keyLen,
keyLen)` with `keyLen := len(vernKey.key)`, then filled. -/
def buildIndexKey (vernKey : VernKey) : List Int :=
  let keyLen := strLen vernKey.key.data
  fillIndexKey vernKey (rangeString vernKey.key.data 0) (List.replicate keyLen 0)

/-- The loop `for i, j := 0, len(indexKey)-1; i < j; i, j = i+1, j-1` of
`DecodeStream`, swapping `indexKey[i]` and `indexKey[j]`; `fuel` bounds the
number of iterations. -/
def reverseLoop : Nat → List Int → Int → Int → List Int
  | 0, indexKey, _, _ => indexKey
  | fuel + 1, indexKey, i, j =>
    if i < j then
      let a := indexKey.getD i.toNat 0
      let b := indexKey.getD j.toNat 0
      reverseLoop fuel ((indexKey.set i.toNat b).set j.toNat a) (i + 1) (j - 1)
    else indexKey

/-- The reversal of `indexKey` in `DecodeStream`. -/
def reverseIndexKey (indexKey : List Int) : List Int :=
  reverseLoop indexKey.length indexKey 0 ((indexKey.length : Int) - 1)

/-- The loop `for _, index := range indexKey { runeIndex ^= index }`. -/
def xorFold (indexKey : List Int) (runeIndex : Int) : Int :=
  indexKey.foldl Int.xor runeIndex

/-- The statements after the read loop: `writer.WriteRune('\n');
writer.Flush(); return nil`. -/
def finishLine (reader : Reader) (writer : Writer) : StreamResult :=
  { reader := reader, writer := (writer.WriteRune newline).Flush,
    outcome := Outcome.returned none }

/-- The read loop shared by `EncodeStream` and `DecodeStream`, with the
statements after it. An exhausted reader reports `io.EOF`. -/
def streamLoop (vernKey : VernKey) (indexKey : List Int) : Reader → Writer → StreamResult
  | [], writer => finishLine [] writer
  | ev :: rest, writer =>
    let rune := ev.result.1
    let error := ev.result.2
    if error = some GoError.EOF ∨ rune = newline then finishLine rest writer
    else
      let found := RuneToIndex vernKey rune
      if found.2 ≠ none then
        { reader := rest, writer := writer, outcome := Outcome.returned error }
      else
        match IndexToRune vernKey (xorFold indexKey found.1) with
        | none => { reader := rest, writer := writer, outcome := Outcome.panicked }
        | some c => streamLoop vernKey indexKey rest (writer.WriteRune c)

/-- Function `EncodeStream`. -/
def EncodeStream (reader : Reader) (writer : Writer) (vernKey : VernKey) : StreamResult :=
  streamLoop vernKey (buildIndexKey vernKey) reader writer

/-- Function `DecodeStream`. -/
def DecodeStream (reader : Reader) (writer : Writer) (vernKey : VernKey) : StreamResult :=
  streamLoop vernKey (reverseIndexKey (buildIndexKey vernKey)) reader writer

/-! ## The driver -/

/-- What a run of the program leaves: standard output, the errors printed to
standard error, and the exit code. -/
structure Exit where
  stdout : List Rune
  stderr : List GoError
  code : Nat
  deriving DecidableEq

/-- Function `main`, from the decoded key file, the `-decode` flag and the
standard input. A panic ends the process with exit code 2. -/
def main (decoded : Except GoError KeyMap) (decode : Bool) (stdin : Reader) : Exit :=
  match ReadKey decoded with
  | .error err => { stdout := [], stderr := [err], code := 1 }
  | .ok vernKey =>
    match Validate vernKey with
    | some err => { stdout := [], stderr := [err], code := 1 }
    | none =>
      let run :=
        if decode then DecodeStream stdin Writer.new vernKey
        else EncodeStream stdin Writer.new vernKey
      match run.outcome with
      | Outcome.returned (some err) => { stdout := run.writer.out, stderr := [err], code := 1 }
      | Outcome.returned none => { stdout := run.writer.out, stderr := [], code := 0 }
      | Outcome.panicked => { stdout := run.writer.out, stderr := [], code := 2 }

/-- The reader that delivers the runes of `s` and then `io.EOF`. -/
def readerOf (s : List Rune) : Reader := s.map ReadEvent.rune

/-- The key configuration of the end-to-end scenario: alphabet A, B, C, D and
key AB. -/
def abcd : VernKey := { alphabet := ['A', 'B', 'C', 'D'], key := "AB" }

/-! ## Notions used to state the properties -/

/-- The fold value of a key: the exclusive or of `RuneToIndex(k)` over all
key symbols `k`. -/
def keyFold (vernKey : VernKey) : Int :=
  xorFold (vernKey.key.data.map (fun k => (RuneToIndex vernKey k).1)) 0

/-- The substitute of a symbol: `alphabet[RuneToIndex(c) XOR K]`, with `K` the
fold of the key; `none` when that position is outside the alphabet. -/
def substitute (vernKey : VernKey) (c : Rune) : Option Rune :=
  IndexToRune vernKey (Int.xor (RuneToIndex vernKey c).1 (keyFold vernKey))

/-- The reader stands at the end of a line: it is exhausted, or its next
result is the line terminator (or `io.EOF`). -/
def atLineEnd : Reader → Prop
  | [] => True
  | ev :: _ => ev.result.2 = some GoError.EOF ∨ ev.result.1 = newline

instance : DecidablePred atLineEnd := fun r =>
  match r with
  | [] => isTrue trivial
  | ev :: _ => inferInstanceAs (Decidable (ev.result.2 = some GoError.EOF ∨ ev.result.1 = newline))

/-- The entries of the offset sequence that belong to one key symbol: its
index in the slot of its first byte, zero in the slots of its other bytes. -/
def offsetSlots (vernKey : VernKey) (c : Rune) : List Int :=
  (RuneToIndex vernKey c).1 :: List.replicate (c.utf8Size - 1) 0

/-- A key configuration with a two-byte key symbol: alphabet A, é, C, D and
key éC. -/
def accentKey : VernKey := { alphabet := ['A', 'é', 'C', 'D'], key := "éC" }

/-- A key configuration whose alphabet holds the line terminator: alphabet
A, line feed, and the one-symbol key line feed. -/
def feedKey : VernKey := { alphabet := ['A', newline], key := String.singleton newline }

/-- The decoded key file of the end-to-end scenario. -/
def abcdFile : KeyMap := { alphabet := ["A", "B", "C", "D"], key := "AB" }

/-! ## Exclusive or on `Int` -/

theorem int_xor_comm (a b : Int) : Int.xor a b = Int.xor b a := by
  cases a <;> cases b <;> simp [Int.xor, Nat.xor_comm]

theorem int_xor_assoc (a b c : Int) : Int.xor (Int.xor a b) c = Int.xor a (Int.xor b c) := by
  cases a <;> cases b <;> cases c <;> simp [Int.xor, Nat.xor_assoc]

theorem int_xor_self (a : Int) : Int.xor a a = 0 := by
  cases a <;> simp [Int.xor]

theorem int_xor_zero (a : Int) : Int.xor a 0 = a := by
  cases a <;> simp [Int.xor]

theorem int_zero_xor (a : Int) : Int.xor 0 a = a := by
  rw [int_xor_comm, int_xor_zero]

theorem int_xor_cancel (a b : Int) : Int.xor (Int.xor a b) b = a := by
  rw [int_xor_assoc, int_xor_self, int_xor_zero]

theorem int_xor_natCast (a b : Nat) : Int.xor (a : Int) (b : Int) = ((a ^^^ b : Nat) : Int) := rfl

/-- The fold of a sequence into a start value is the start value combined with
the fold of the sequence into zero. -/
theorem xorFold_eq (l : List Int) (x : Int) : xorFold l x = Int.xor x (xorFold l 0) := by
  unfold xorFold
  induction l generalizing x with
  | nil => simp [int_xor_zero]
  | cons a t ih =>
    simp only [List.foldl_cons]
    rw [ih (Int.xor x a), ih (Int.xor 0 a), int_zero_xor, int_xor_assoc]

theorem xorFold_nil (x : Int) : xorFold [] x = x := rfl

theorem xorFold_cons (a : Int) (l : List Int) (x : Int) :
    xorFold (a :: l) x = xorFold l (Int.xor x a) := rfl

theorem xorFold_cons_zero (a : Int) (l : List Int) :
    xorFold (a :: l) 0 = Int.xor a (xorFold l 0) := by
  rw [xorFold_cons, xorFold_eq, int_zero_xor]

/-- Overwriting one entry changes the fold by the old and the new entry. -/
theorem xorFold_set (l : List Int) (i : Nat) (v : Int) (h : i < l.length) :
    xorFold (l.set i v) 0 = Int.xor (Int.xor (xorFold l 0) (l.getD i 0)) v := by
  induction l generalizing i with
  | nil => simp at h
  | cons a t ih =>
    cases i with
    | zero =>
      simp only [List.set_cons_zero, List.getD_cons_zero, xorFold_cons_zero]
      rw [int_xor_comm a (xorFold t 0), int_xor_cancel, int_xor_comm]
    | succ n =>
      have hn : n < t.length := by simpa using h
      simp only [List.set_cons_succ, List.getD_cons_succ, xorFold_cons_zero, ih n hn]
      simp only [int_xor_assoc]

/-! ## The lookups -/

theorem runeToIndexLoop_spec (rl : Rune) (l : List Rune) (k : Int) :
    (rl ∈ l → ∃ i : Nat, runeToIndexLoop rl l k = (k + (i : Int), none) ∧ i < l.length ∧
        l.get? i = some rl ∧ ∀ j, j < i → l.get? j ≠ some rl) ∧
    (rl ∉ l → runeToIndexLoop rl l k = (-1, some (letterError rl))) := by
  induction l generalizing k with
  | nil => simp [runeToIndexLoop]
  | cons a t ih =>
    by_cases h : rl = a
    · subst h
      refine ⟨fun _ => ⟨0, ?_⟩, fun hn => absurd (List.mem_cons_self _ _) hn⟩
      simp [runeToIndexLoop]
    · refine ⟨fun hm => ?_, fun hn => ?_⟩
      · have hm2 : rl ∈ t := by
          rcases List.mem_cons.1 hm with h1 | h1
          · exact absurd h1 h
          · exact h1
        obtain ⟨i, h1, h2, h3, h4⟩ := (ih (k + 1)).1 hm2
        refine ⟨i + 1, ?_, ?_, ?_, ?_⟩
        · simp only [runeToIndexLoop, if_neg h, h1]
          congr 1
          push_cast
          ring
        · simpa using h2
        · simpa using h3
        · intro j hj
          cases j with
          | zero =>
            simp only [List.get?_cons_zero, ne_eq, Option.some.injEq]
            exact fun e => h e.symm
          | succ n =>
            simp only [List.get?_cons_succ]
            exact h4 n (by omega)
      · have hn2 : rl ∉ t := fun hm => hn (List.mem_cons_of_mem _ hm)
        simp only [runeToIndexLoop, if_neg h]
        exact (ih (k + 1)).2 hn2

/-- A symbol of the alphabet is found, at the position of its first
occurrence. -/
theorem runeToIndex_of_mem (vernKey : VernKey) (rl : Rune) (h : rl ∈ vernKey.alphabet) :
    ∃ i : Nat, RuneToIndex vernKey rl = ((i : Int), none) ∧ i < vernKey.alphabet.length ∧
      vernKey.alphabet.get? i = some rl ∧ ∀ j, j < i → vernKey.alphabet.get? j ≠ some rl := by
  obtain ⟨i, h1, h2⟩ := (runeToIndexLoop_spec rl vernKey.alphabet 0).1 h
  exact ⟨i, by simpa [RuneToIndex] using h1, h2⟩

/-- A symbol outside the alphabet is reported, with index `-1`. -/
theorem runeToIndex_of_not_mem (vernKey : VernKey) (rl : Rune) (h : rl ∉ vernKey.alphabet) :
    RuneToIndex vernKey rl = (-1, some (letterError rl)) :=
  (runeToIndexLoop_spec rl vernKey.alphabet 0).2 h

theorem runeToIndex_err_iff (vernKey : VernKey) (rl : Rune) :
    (RuneToIndex vernKey rl).2 ≠ none ↔ rl ∉ vernKey.alphabet := by
  by_cases h : rl ∈ vernKey.alphabet
  · obtain ⟨i, h1, _⟩ := runeToIndex_of_mem vernKey rl h
    simp [h1, h]
  · simp [runeToIndex_of_not_mem vernKey rl h, h]

/-- In an alphabet of distinct symbols the symbol at a position is found at
that position. -/
theorem runeToIndex_get (vernKey : VernKey) (hd : vernKey.alphabet.Nodup) (i : Nat) (c : Rune)
    (h : vernKey.alphabet.get? i = some c) : RuneToIndex vernKey c = ((i : Int), none) := by
  have hm : c ∈ vernKey.alphabet := List.get?_mem h
  obtain ⟨k, h1, h2, h3, _⟩ := runeToIndex_of_mem vernKey c hm
  have hi : i < vernKey.alphabet.length := by
    rcases Nat.lt_or_ge i vernKey.alphabet.length with h5 | h5
    · exact h5
    · rw [List.get?_eq_none.2 h5] at h; cases h
  have e : k = i := by
    have hinj := List.nodup_iff_injective_get.1 hd
    have heq : vernKey.alphabet.get ⟨k, h2⟩ = vernKey.alphabet.get ⟨i, hi⟩ := by
      have a := List.get?_eq_get h2
      have b := List.get?_eq_get hi
      rw [h3] at a; rw [h] at b
      exact (Option.some.inj a).symm.trans (Option.some.inj b)
    exact congrArg Fin.val (hinj heq)
  rw [h1, e]

/-! ## Validation -/

theorem rangeString_snd (cs : List Char) (off : Nat) :
    (rangeString cs off).map Prod.snd = cs := by
  induction cs generalizing off with
  | nil => rfl
  | cons c t ih => simp [rangeString, ih]

theorem mem_foldl_store (l : List Rune) (m : RuneMap) (r : Rune) :
    r ∈ l.foldl RuneMap.store m ↔ r ∈ m ∨ r ∈ l := by
  induction l generalizing m with
  | nil => simp
  | cons a t ih =>
    simp only [List.foldl_cons, ih, List.mem_cons]
    unfold RuneMap.store
    by_cases h : a ∈ m
    · simp only [if_pos h]
      constructor
      · rintro (h1 | h1)
        · exact Or.inl h1
        · exact Or.inr (Or.inr h1)
      · rintro (h1 | h1 | h1)
        · exact Or.inl h1
        · exact Or.inl (h1 ▸ h)
        · exact Or.inr h1
    · simp only [if_neg h, List.mem_cons]
      tauto

theorem validateLoop_none (m : RuneMap) (kvs : List (Nat × Rune)) :
    validateLoop m kvs = none ↔ ∀ c ∈ kvs.map Prod.snd, c ∈ m := by
  induction kvs with
  | nil => simp [validateLoop]
  | cons p t ih =>
    obtain ⟨i, c⟩ := p
    by_cases h : c ∈ m
    · simp [validateLoop, RuneMap.has, h, ih]
    · simp [validateLoop, RuneMap.has, h]

theorem validateLoop_some (m : RuneMap) (kvs : List (Nat × Rune)) (err : GoError)
    (h : validateLoop m kvs = some err) :
    ∃ pre c post, kvs.map Prod.snd = pre ++ c :: post ∧ (∀ x ∈ pre, x ∈ m) ∧ c ∉ m ∧
      err = keyMemberError c := by
  induction kvs with
  | nil => simp [validateLoop] at h
  | cons p t ih =>
    obtain ⟨i, c⟩ := p
    by_cases hc : c ∈ m
    · simp only [validateLoop, RuneMap.has, hc, decide_True, Bool.not_true, Bool.false_eq_true,
        if_false] at h
      obtain ⟨pre, d, post, h1, h2, h3, h4⟩ := ih h
      refine ⟨c :: pre, d, post, by simp [h1], ?_, h3, h4⟩
      intro x hx
      rcases List.mem_cons.1 hx with e | e
      · exact e ▸ hc
      · exact h2 x e
    · simp only [validateLoop, RuneMap.has, hc, decide_False, Bool.not_false, if_true,
        Option.some.injEq] at h
      exact ⟨[], c, t.map Prod.snd, by simp, by simp, hc, h.symm⟩

theorem validate_none_iff (vernKey : VernKey) :
    Validate vernKey = none ↔ ∀ c ∈ vernKey.key.data, c ∈ vernKey.alphabet := by
  unfold Validate
  simp only [validateLoop_none, rangeString_snd, mem_foldl_store, List.not_mem_nil, false_or]

/-! ## The offset sequence -/

theorem fillIndexKey_length (vernKey : VernKey) (kvs : List (Nat × Rune)) (acc : List Int) :
    (fillIndexKey vernKey kvs acc).length = acc.length := by
  induction kvs generalizing acc with
  | nil => rfl
  | cons p t ih =>
    obtain ⟨i, c⟩ := p
    simp [fillIndexKey, ih]

theorem getD_set_ne (l : List Int) (i j : Nat) (v : Int) (h : i ≠ j) :
    (l.set i v).getD j 0 = l.getD j 0 := by
  simp [List.getD_eq_getElem?_getD, List.getElem?_set_ne h]

theorem fillIndexKey_fold (vernKey : VernKey) (cs : List Char) (off : Nat) (acc : List Int)
    (hlen : off + strLen cs ≤ acc.length) (hz : ∀ j, off ≤ j → acc.getD j 0 = 0) :
    xorFold (fillIndexKey vernKey (rangeString cs off) acc) 0
      = Int.xor (xorFold acc 0) (xorFold (cs.map (fun k => (RuneToIndex vernKey k).1)) 0) := by
  induction cs generalizing off acc with
  | nil => simp [rangeString, fillIndexKey, xorFold_nil, int_xor_zero]
  | cons c t ih =>
    have hpos : 0 < c.utf8Size := Char.utf8Size_pos c
    have hs : strLen (c :: t) = c.utf8Size + strLen t := by simp [strLen]
    rw [hs] at hlen
    have hoff : off < acc.length := by omega
    simp only [rangeString, fillIndexKey, List.map_cons]
    rw [ih (off + c.utf8Size) (acc.set off (RuneToIndex vernKey c).1)
      (by simp only [List.length_set]; omega)
      (by
        intro j hj
        rw [getD_set_ne acc off j _ (by omega)]
        exact hz j (by omega))]
    rw [xorFold_set acc off _ hoff, hz off (Nat.le_refl _), int_xor_zero, xorFold_cons_zero,
      int_xor_assoc]

theorem xorFold_replicate_zero (n : Nat) : xorFold (List.replicate n 0) 0 = 0 := by
  induction n with
  | zero => rfl
  | succ n ih => rw [List.replicate_succ, xorFold_cons_zero, ih]; rfl

theorem getD_replicate_zero (n j : Nat) : (List.replicate n (0 : Int)).getD j 0 = 0 := by
  rw [List.getD_eq_getElem?_getD]
  by_cases h : j < n
  · simp [List.getElem?_replicate, h]
  · simp [List.getElem?_replicate, h]

/-- Folding the offset sequence that `EncodeStream` builds is the fold of the
key: the entries at the bytes inside a multi-byte key symbol stay zero. -/
theorem buildIndexKey_fold (vernKey : VernKey) :
    xorFold (buildIndexKey vernKey) 0 = keyFold vernKey := by
  unfold buildIndexKey keyFold
  simp only
  rw [fillIndexKey_fold vernKey vernKey.key.data 0 _ (by simp) (fun j _ => getD_replicate_zero _ j),
    xorFold_replicate_zero, int_zero_xor]

theorem buildIndexKey_length (vernKey : VernKey) :
    (buildIndexKey vernKey).length = strLen vernKey.key.data := by
  simp [buildIndexKey, fillIndexKey_length]

/-! ## The reversal in `DecodeStream` -/

theorem xorFold_swap (l : List Int) (p q : Nat) (hpq : p ≠ q) (hp : p < l.length)
    (hq : q < l.length) :
    xorFold ((l.set p (l.getD q 0)).set q (l.getD p 0)) 0 = xorFold l 0 := by
  rw [xorFold_set _ q _ (by simpa using hq), getD_set_ne l p q _ hpq, xorFold_set l p _ hp,
    int_xor_cancel, int_xor_cancel]

theorem reverseLoop_length (fuel : Nat) (l : List Int) (i j : Int) :
    (reverseLoop fuel l i j).length = l.length := by
  induction fuel generalizing l i j with
  | zero => rfl
  | succ n ih =>
    unfold reverseLoop
    split
    · simp [ih]
    · rfl

theorem reverseLoop_fold (fuel : Nat) (l : List Int) (i j : Int) (hi : 0 ≤ i)
    (hj : j < (l.length : Int)) :
    xorFold (reverseLoop fuel l i j) 0 = xorFold l 0 := by
  induction fuel generalizing l i j with
  | zero => rfl
  | succ n ih =>
    unfold reverseLoop
    split
    · next hlt =>
      have h1 : i.toNat < j.toNat := by omega
      have h2 : j.toNat < l.length := by omega
      simp only
      rw [ih _ (i + 1) (j - 1) (by omega) (by simp only [List.length_set]; omega)]
      exact xorFold_swap l i.toNat j.toNat (by omega) (by omega) h2
    · rfl

/-- Reversing the offset sequence does not change what it folds to. -/
theorem reverseIndexKey_fold (indexKey : List Int) (x : Int) :
    xorFold (reverseIndexKey indexKey) x = xorFold indexKey x := by
  rw [xorFold_eq, xorFold_eq indexKey]
  unfold reverseIndexKey
  rw [reverseLoop_fold _ _ _ _ (le_refl _) (by omega)]

theorem getD_mid (pre : List Int) (x : Int) (r : List Int) (n : Nat) (h : n = pre.length) :
    (pre ++ x :: r).getD n 0 = x := by
  subst h
  induction pre with
  | nil => rfl
  | cons a t ih => simpa using ih

theorem set_mid (pre : List Int) (x y : Int) (r : List Int) (n : Nat) (h : n = pre.length) :
    (pre ++ x :: r).set n y = pre ++ y :: r := by
  subst h
  induction pre with
  | nil => rfl
  | cons a t ih => simp

theorem reverseLoop_spec (fuel : Nat) (pre mid post : List Int) (hf : mid.length ≤ fuel) :
    reverseLoop fuel (pre ++ mid ++ post) (pre.length : Int)
        ((pre.length : Int) + (mid.length : Int) - 1)
      = pre ++ mid.reverse ++ post := by
  induction fuel generalizing pre mid post with
  | zero =>
    have : mid = [] := List.length_eq_zero.1 (by omega)
    subst this
    simp [reverseLoop]
  | succ n ih =>
    cases mid with
    | nil => simp [reverseLoop]
    | cons x t =>
      rcases List.eq_nil_or_concat t with rfl | ⟨m, y, rfl⟩
      · simp [reverseLoop]
      · have hl : (x :: m.concat y).length = m.length + 2 := by simp
        rw [hl] at hf ⊢
        unfold reverseLoop
        have hlt : (pre.length : Int) < (pre.length : Int) + ((m.length + 2 : Nat) : Int) - 1 := by
          omega
        rw [if_pos hlt]
        have hi : (pre.length : Int).toNat = pre.length := Int.toNat_ofNat _
        have hj : ((pre.length : Int) + ((m.length + 2 : Nat) : Int) - 1).toNat
            = pre.length + (m.length + 1) := by omega
        simp only [hi, hj]
        have e1 : pre ++ x :: m.concat y ++ post = pre ++ x :: (m ++ y :: post) := by simp
        have e2 : pre ++ x :: (m ++ y :: post) = (pre ++ x :: m) ++ y :: post := by simp
        have e3 : pre ++ y :: (m ++ y :: post) = (pre ++ y :: m) ++ y :: post := by simp
        rw [e1, getD_mid pre x _ pre.length rfl]
        rw [e2, getD_mid (pre ++ x :: m) y post _ (by simp)]
        rw [← e2, set_mid pre x y _ pre.length rfl, e3,
          set_mid (pre ++ y :: m) y x post _ (by simp)]
        have h2 := ih (pre ++ [y]) m (x :: post) (by omega)
        have hidx1 : ((pre ++ [y]).length : Int) = (pre.length : Int) + 1 := by simp
        have hidx2 : ((pre ++ [y]).length : Int) + (m.length : Int) - 1
            = (pre.length : Int) + ((m.length + 2 : Nat) : Int) - 1 - 1 := by
          rw [hidx1]; push_cast; omega
        rw [hidx2, hidx1] at h2
        have e4 : pre ++ [y] ++ m ++ x :: post = pre ++ y :: m ++ x :: post := by simp
        rw [e4] at h2
        rw [h2]
        simp

/-- The swap loop of `DecodeStream` reverses the offset sequence. -/
theorem reverseIndexKey_eq_reverse (l : List Int) : reverseIndexKey l = l.reverse := by
  have := reverseLoop_spec l.length [] l [] (le_refl _)
  simpa [reverseIndexKey] using this
theorem streamLoop_congr (vernKey : VernKey) (ik ik2 : List Int)
    (h : ∀ x, xorFold ik x = xorFold ik2 x) (reader : Reader) (writer : Writer) :
    streamLoop vernKey ik reader writer = streamLoop vernKey ik2 reader writer := by
  induction reader generalizing writer with
  | nil => rfl
  | cons ev rest ih =>
    simp only [streamLoop, h]
    split
    · rfl
    · split
      · rfl
      · split
        · rfl
        · exact ih _

/-! ## Indices stay inside a power-of-two alphabet -/

theorem xor_inRange (k : Nat) (a b : Int) (ha : 0 ≤ a ∧ a < 2 ^ k) (hb : 0 ≤ b ∧ b < 2 ^ k) :
    0 ≤ Int.xor a b ∧ Int.xor a b < 2 ^ k := by
  obtain ⟨m, rfl⟩ := Int.eq_ofNat_of_zero_le ha.1
  obtain ⟨n, rfl⟩ := Int.eq_ofNat_of_zero_le hb.1
  have hm : m < 2 ^ k := by exact_mod_cast ha.2
  have hn : n < 2 ^ k := by exact_mod_cast hb.2
  rw [int_xor_natCast]
  refine ⟨Int.ofNat_nonneg _, ?_⟩
  exact_mod_cast Nat.xor_lt_two_pow hm hn

theorem xorFold_inRange (k : Nat) (l : List Int) (x : Int)
    (hl : ∀ v ∈ l, 0 ≤ v ∧ v < 2 ^ k) (hx : 0 ≤ x ∧ x < 2 ^ k) :
    0 ≤ xorFold l x ∧ xorFold l x < 2 ^ k := by
  induction l generalizing x with
  | nil => exact hx
  | cons a t ih =>
    rw [xorFold_cons]
    exact ih _ (fun v hv => hl v (List.mem_cons_of_mem _ hv))
      (xor_inRange k x a hx (hl a (List.mem_cons_self _ _)))

theorem runeToIndex_inRange (vernKey : VernKey) (k : Nat)
    (hpow : vernKey.alphabet.length = 2 ^ k) (c : Rune) (hc : c ∈ vernKey.alphabet) :
    0 ≤ (RuneToIndex vernKey c).1 ∧ (RuneToIndex vernKey c).1 < 2 ^ k := by
  obtain ⟨i, h1, h2, _⟩ := runeToIndex_of_mem vernKey c hc
  rw [h1]
  refine ⟨Int.ofNat_nonneg _, ?_⟩
  have : i < 2 ^ k := by omega
  show (i : Int) < 2 ^ k
  exact_mod_cast this

theorem keyFold_inRange (vernKey : VernKey) (k : Nat)
    (hpow : vernKey.alphabet.length = 2 ^ k) (hkey : ∀ c ∈ vernKey.key.data, c ∈ vernKey.alphabet) :
    0 ≤ keyFold vernKey ∧ keyFold vernKey < 2 ^ k := by
  unfold keyFold
  refine xorFold_inRange k _ 0 ?_ ⟨le_refl _, by positivity⟩
  intro v hv
  obtain ⟨c, hc, rfl⟩ := List.mem_map.1 hv
  exact runeToIndex_inRange vernKey k hpow c (hkey c hc)

theorem indexToRune_of_inRange (vernKey : VernKey) (x : Int)
    (hx : 0 ≤ x ∧ x < (vernKey.alphabet.length : Int)) :
    ∃ y, IndexToRune vernKey x = some y ∧ vernKey.alphabet.get? x.toNat = some y := by
  have h : x.toNat < vernKey.alphabet.length := by omega
  refine ⟨vernKey.alphabet.get ⟨x.toNat, h⟩, ?_, List.get?_eq_get h⟩
  simp only [IndexToRune, if_pos hx.1]
  exact List.get?_eq_get h

/-! ## One line through the read loop -/

theorem streamLoop_atLineEnd (vernKey : VernKey) (ik : List Int) (rest : Reader) (w : Writer)
    (h : atLineEnd rest) : streamLoop vernKey ik rest w = finishLine rest.tail w := by
  cases rest with
  | nil => rfl
  | cons ev more =>
    simp only [streamLoop, List.tail_cons]
    exact if_pos h

theorem written_WriteRune (w : Writer) (c : Rune) :
    (w.WriteRune c).written = w.written ++ [c] := by
  unfold Writer.WriteRune Writer.written Writer.transfer
  split <;> split <;> simp

theorem flushes_WriteRune (w : Writer) (c : Rune) : (w.WriteRune c).flushes = w.flushes := by
  unfold Writer.WriteRune Writer.transfer
  split <;> split <;> rfl

theorem written_writeAll (w : Writer) (ys : List Rune) :
    (w.writeAll ys).written = w.written ++ ys := by
  unfold Writer.writeAll
  induction ys generalizing w with
  | nil => simp
  | cons y t ih => simp [List.foldl_cons, ih, written_WriteRune]

theorem flushes_writeAll (w : Writer) (ys : List Rune) :
    (w.writeAll ys).flushes = w.flushes := by
  unfold Writer.writeAll
  induction ys generalizing w with
  | nil => rfl
  | cons y t ih => simp [List.foldl_cons, ih, flushes_WriteRune]

/-- After the line terminator and `Flush` everything written has been
delivered, however the buffer was filled on the way. -/
theorem finishLine_eq (reader : Reader) (w : Writer) :
    finishLine reader w
      = { reader := reader,
          writer := { buf := [], out := w.written ++ [newline], flushes := w.flushes + 1 },
          outcome := Outcome.returned none } := by
  have h1 := written_WriteRune w newline
  have h2 := flushes_WriteRune w newline
  simp only [Writer.written] at h1
  simp only [finishLine, Writer.Flush, h1, h2, Writer.written]

theorem streamLoop_line (vernKey : VernKey) (ik : List Int) (line ys : List Rune)
    (rest : Reader) (w : Writer)
    (hline : ∀ c ∈ line, c ∈ vernKey.alphabet ∧ c ≠ newline)
    (hys : line.map (fun c => IndexToRune vernKey (xorFold ik (RuneToIndex vernKey c).1))
      = ys.map some) :
    streamLoop vernKey ik (readerOf line ++ rest) w
      = streamLoop vernKey ik rest (w.writeAll ys) := by
  induction line generalizing ys w with
  | nil =>
    cases ys with
    | nil => simp [readerOf, Writer.writeAll]
    | cons y t => simp at hys
  | cons c t ih =>
    cases ys with
    | nil => simp at hys
    | cons y ys =>
      simp only [List.map_cons, List.cons.injEq] at hys
      obtain ⟨hy, ht⟩ := hys
      obtain ⟨hc, hnl⟩ := hline c (List.mem_cons_self _ _)
      obtain ⟨i, h1, _⟩ := runeToIndex_of_mem vernKey c hc
      have herr : (RuneToIndex vernKey c).2 = none := by rw [h1]
      simp only [readerOf, List.map_cons, List.cons_append, streamLoop, ReadEvent.result]
      rw [if_neg (by simp [hnl]), if_neg (by simp [herr]), hy]
      simp only
      exact ih ys (w.WriteRune y) (fun d hd => hline d (List.mem_cons_of_mem _ hd)) ht

/-- The result of `EncodeStream` on a line of alphabet symbols whose
substitutes `ys` all exist. -/
theorem encodeStream_line (vernKey : VernKey) (line ys : List Rune) (rest : Reader) (w : Writer)
    (hline : ∀ c ∈ line, c ∈ vernKey.alphabet ∧ c ≠ newline)
    (hys : line.map (substitute vernKey) = ys.map some) (hrest : atLineEnd rest) :
    EncodeStream (readerOf line ++ rest) w vernKey
      = { reader := rest.tail,
          writer := { buf := [], out := w.out ++ (w.buf ++ ys ++ [newline]),
                      flushes := w.flushes + 1 },
          outcome := Outcome.returned none } := by
  unfold EncodeStream
  rw [streamLoop_line vernKey _ line ys rest w hline
    (by
      rw [← hys]
      apply List.map_congr_left
      intro c _
      simp only [substitute]
      rw [xorFold_eq, buildIndexKey_fold]),
    streamLoop_atLineEnd _ _ _ _ hrest, finishLine_eq, written_writeAll, flushes_writeAll]
  simp [Writer.written]

/-- `DecodeStream` is `EncodeStream`. -/
theorem decodeStream_eq (reader : Reader) (w : Writer) (vernKey : VernKey) :
    DecodeStream reader w vernKey = EncodeStream reader w vernKey :=
  streamLoop_congr vernKey _ _ (reverseIndexKey_fold _) reader w

/-- In a power-of-two alphabet with a key drawn from it every symbol of the
alphabet has a substitute. -/
theorem substitute_exists (vernKey : VernKey) (k : Nat)
    (hpow : vernKey.alphabet.length = 2 ^ k)
    (hkey : ∀ c ∈ vernKey.key.data, c ∈ vernKey.alphabet) (c : Rune)
    (hc : c ∈ vernKey.alphabet) :
    ∃ y, substitute vernKey c = some y ∧
      vernKey.alphabet.get? (Int.xor (RuneToIndex vernKey c).1 (keyFold vernKey)).toNat = some y := by
  have h := xor_inRange k _ _ (runeToIndex_inRange vernKey k hpow c hc)
    (keyFold_inRange vernKey k hpow hkey)
  apply indexToRune_of_inRange
  refine ⟨h.1, ?_⟩
  rw [hpow]
  exact_mod_cast h.2

theorem substitute_line (vernKey : VernKey) (k : Nat)
    (hpow : vernKey.alphabet.length = 2 ^ k)
    (hkey : ∀ c ∈ vernKey.key.data, c ∈ vernKey.alphabet) (line : List Rune)
    (hline : ∀ c ∈ line, c ∈ vernKey.alphabet) :
    ∃ ys : List Rune, line.map (substitute vernKey) = ys.map some := by
  induction line with
  | nil => exact ⟨[], rfl⟩
  | cons c t ih =>
    obtain ⟨ys, hys⟩ := ih (fun d hd => hline d (List.mem_cons_of_mem _ hd))
    obtain ⟨y, hy, _⟩ := substitute_exists vernKey k hpow hkey c (hline c (List.mem_cons_self _ _))
    exact ⟨y :: ys, by simp [hy, hys]⟩

/-! ## The substitution is an involution -/

theorem substitute_involutive (vernKey : VernKey) (k : Nat)
    (hpow : vernKey.alphabet.length = 2 ^ k) (hd : vernKey.alphabet.Nodup)
    (hkey : ∀ c ∈ vernKey.key.data, c ∈ vernKey.alphabet) (c y : Rune)
    (hc : c ∈ vernKey.alphabet) (hy : substitute vernKey c = some y) :
    y ∈ vernKey.alphabet ∧ substitute vernKey y = some c := by
  obtain ⟨y2, h1, h2⟩ := substitute_exists vernKey k hpow hkey c hc
  have e : y2 = y := Option.some.inj (h1.symm.trans hy)
  subst e
  have hr := xor_inRange k _ _ (runeToIndex_inRange vernKey k hpow c hc)
    (keyFold_inRange vernKey k hpow hkey)
  refine ⟨List.get?_mem h2, ?_⟩
  have h3 := runeToIndex_get vernKey hd _ _ h2
  obtain ⟨i, h4, _, h5, _⟩ := runeToIndex_of_mem vernKey c hc
  simp only [substitute, h3]
  rw [Int.toNat_of_nonneg hr.1, int_xor_cancel, h4]
  simp only [IndexToRune, Int.ofNat_nonneg, if_true, Int.toNat_ofNat]
  exact h5

theorem substitute_line_back (vernKey : VernKey) (k : Nat)
    (hpow : vernKey.alphabet.length = 2 ^ k) (hd : vernKey.alphabet.Nodup)
    (hkey : ∀ c ∈ vernKey.key.data, c ∈ vernKey.alphabet) (line ys : List Rune)
    (hline : ∀ c ∈ line, c ∈ vernKey.alphabet)
    (hys : line.map (substitute vernKey) = ys.map some) :
    (∀ y ∈ ys, y ∈ vernKey.alphabet) ∧ ys.map (substitute vernKey) = line.map some := by
  induction line generalizing ys with
  | nil =>
    cases ys with
    | nil => simp
    | cons y t => simp at hys
  | cons c t ih =>
    cases ys with
    | nil => simp at hys
    | cons y ys =>
      simp only [List.map_cons, List.cons.injEq] at hys
      obtain ⟨h1, h2⟩ := substitute_involutive vernKey k hpow hd hkey c y
        (hline c (List.mem_cons_self _ _)) hys.1
      obtain ⟨h3, h4⟩ := ih ys (fun d hd2 => hline d (List.mem_cons_of_mem _ hd2)) hys.2
      refine ⟨?_, by simp [h2, h4]⟩
      intro z hz
      rcases List.mem_cons.1 hz with e | e
      · exact e ▸ h1
      · exact h3 z e

theorem streamLoop_never_error (vernKey : VernKey) (ik : List Int) (s : List Rune) (w : Writer)
    (err : GoError) :
    (streamLoop vernKey ik (readerOf s) w).outcome ≠ Outcome.returned (some err) := by
  induction s generalizing w with
  | nil => simp [readerOf, streamLoop, finishLine]
  | cons c t ih =>
    simp only [readerOf, List.map_cons, streamLoop, ReadEvent.result]
    split
    · simp [finishLine]
    · split
      · simp
      · split
        · simp
        · exact ih _

/-! ## The properties -/

/-- C1 (as amended): round trip. For every alphabet of distinct symbols that
does not hold the line terminator and whose length is a power of two, every
key drawn from it and every line of alphabet symbols, `EncodeStream` succeeds
and `DecodeStream` run on what it wrote writes the line back, followed by the
line terminator. -/
theorem roundtrip (vernKey : VernKey) (k : Nat) (line : List Rune) (rest : Reader)
    (hpow : vernKey.alphabet.length = 2 ^ k) (hd : vernKey.alphabet.Nodup)
    (hnl : newline ∉ vernKey.alphabet)
    (hkey : ∀ c ∈ vernKey.key.data, c ∈ vernKey.alphabet)
    (hline : ∀ c ∈ line, c ∈ vernKey.alphabet) (hrest : atLineEnd rest) :
    (EncodeStream (readerOf line ++ rest) Writer.new vernKey).outcome = Outcome.returned none ∧
    DecodeStream (readerOf (EncodeStream (readerOf line ++ rest) Writer.new vernKey).writer.out)
        Writer.new vernKey
      = { reader := [], writer := { buf := [], out := line ++ [newline], flushes := 1 },
          outcome := Outcome.returned none } := by
  obtain ⟨ys, hys⟩ := substitute_line vernKey k hpow hkey line hline
  obtain ⟨hmem, hback⟩ := substitute_line_back vernKey k hpow hd hkey line ys hline hys
  have hne : ∀ c : Rune, c ∈ vernKey.alphabet → c ≠ newline := fun c hc e => hnl (e ▸ hc)
  rw [encodeStream_line vernKey line ys rest Writer.new
    (fun c hc => ⟨hline c hc, hne c (hline c hc)⟩) hys hrest]
  refine ⟨rfl, ?_⟩
  have hr : readerOf (Writer.new.out ++ (Writer.new.buf ++ ys ++ [newline]))
      = readerOf ys ++ [ReadEvent.rune newline] := by
    simp [readerOf, Writer.new]
  simp only [hr]
  rw [decodeStream_eq, encodeStream_line vernKey ys line [ReadEvent.rune newline] Writer.new
    (fun c hc => ⟨hmem c hc, hne c (hmem c hc)⟩) hback (Or.inr rfl)]
  simp [Writer.new]

/-- C1, witness: alphabet A, B, C, D with key AB and the line CAB. -/
theorem roundtrip_witness :
    abcd.alphabet.length = 2 ^ 2 ∧ abcd.alphabet.Nodup ∧ newline ∉ abcd.alphabet ∧
    (EncodeStream (readerOf ['C', 'A', 'B']) Writer.new abcd).writer.out
      = ['D', 'B', 'A', newline] ∧
    DecodeStream (readerOf (EncodeStream (readerOf ['C', 'A', 'B'] ++ []) Writer.new abcd).writer.out)
        Writer.new abcd
      = { reader := [], writer := { buf := [], out := ['C', 'A', 'B'] ++ [newline], flushes := 1 },
          outcome := Outcome.returned none } :=
  ⟨by decide, by decide, by decide, by decide,
    (roundtrip abcd 2 ['C', 'A', 'B'] [] (by decide) (by decide) (by decide) (by decide)
      (by decide) trivial).2⟩

/-- C1, counterexample: with the line terminator in the alphabet (alphabet A,
line feed; key line feed) the line A is encoded to a line feed, and decoding
the output stops at once: the line A is not written back. -/
theorem roundtrip_fails_with_terminator_in_alphabet :
    feedKey.alphabet.Nodup ∧ feedKey.alphabet.length = 2 ^ 1 ∧
    (∀ c ∈ feedKey.key.data, c ∈ feedKey.alphabet) ∧
    (∀ c ∈ ['A'], c ∈ feedKey.alphabet ∧ c ≠ newline) ∧
    (EncodeStream (readerOf ['A']) Writer.new feedKey).writer.out = [newline, newline] ∧
    (DecodeStream (readerOf (EncodeStream (readerOf ['A']) Writer.new feedKey).writer.out)
        Writer.new feedKey).writer.out = [newline] ∧
    (DecodeStream (readerOf (EncodeStream (readerOf ['A']) Writer.new feedKey).writer.out)
        Writer.new feedKey).writer.out ≠ ['A', newline] := by
  decide

/-- C2: per-symbol transform. For every alphabet of power-of-two length, every
key accepted by `Validate` and every line of alphabet symbols, `EncodeStream`
writes, for the i-th symbol of the line, `alphabet[RuneToIndex(line[i]) XOR K]`
with `K` the fold of the key, then the line terminator; the written symbol is a
function of the input symbol alone. -/
theorem encodeStream_per_symbol (vernKey : VernKey) (k : Nat) (line : List Rune)
    (rest : Reader) (w : Writer)
    (hpow : vernKey.alphabet.length = 2 ^ k) (hval : Validate vernKey = none)
    (hline : ∀ c ∈ line, c ∈ vernKey.alphabet ∧ c ≠ newline) (hrest : atLineEnd rest) :
    ∃ ys : List Rune,
      ys.map some = line.map (fun c =>
        IndexToRune vernKey (Int.xor (RuneToIndex vernKey c).1 (keyFold vernKey))) ∧
      EncodeStream (readerOf line ++ rest) w vernKey
        = { reader := rest.tail,
            writer := { buf := [], out := w.out ++ (w.buf ++ ys ++ [newline]),
                        flushes := w.flushes + 1 },
            outcome := Outcome.returned none } := by
  have hkey := (validate_none_iff vernKey).1 hval
  obtain ⟨ys, hys⟩ := substitute_line vernKey k hpow hkey line (fun c hc => (hline c hc).1)
  exact ⟨ys, hys.symm, encodeStream_line vernKey line ys rest w hline hys hrest⟩

/-- C2, witness: alphabet A, B, C, D with key AB encodes CAB to DBA. -/
theorem encodeStream_per_symbol_witness :
    abcd.alphabet.length = 2 ^ 2 ∧ Validate abcd = none ∧ keyFold abcd = 1 ∧
    (EncodeStream (readerOf ['C', 'A', 'B'] ++ [ReadEvent.rune newline]) Writer.new abcd).writer.out
      = ['D', 'B', 'A', newline] ∧
    ∃ ys : List Rune,
      ys.map some = ['C', 'A', 'B'].map (fun c =>
        IndexToRune abcd (Int.xor (RuneToIndex abcd c).1 (keyFold abcd))) ∧
      EncodeStream (readerOf ['C', 'A', 'B'] ++ [ReadEvent.rune newline]) Writer.new abcd
        = { reader := [ReadEvent.rune newline].tail,
            writer := { buf := [], out := Writer.new.out ++ (Writer.new.buf ++ ys ++ [newline]),
                        flushes := Writer.new.flushes + 1 },
            outcome := Outcome.returned none } :=
  ⟨by decide, by decide, by decide, by decide,
    encodeStream_per_symbol abcd 2 ['C', 'A', 'B'] [ReadEvent.rune newline] Writer.new
      (by decide) (by decide) (by decide) (Or.inr rfl)⟩

/-- C3: encode and decode are the same transform. For every key configuration,
reader and writer `DecodeStream` leaves the same reader and writer and the same
result as `EncodeStream`, and the reversed offset sequence folds every index to
the same value as the offset sequence itself. -/
theorem decodeStream_same_as_encodeStream (reader : Reader) (w : Writer) (vernKey : VernKey) :
    DecodeStream reader w vernKey = EncodeStream reader w vernKey ∧
    reverseIndexKey (buildIndexKey vernKey) = (buildIndexKey vernKey).reverse ∧
    ∀ x : Int, xorFold (reverseIndexKey (buildIndexKey vernKey)) x
      = xorFold (buildIndexKey vernKey) x :=
  ⟨decodeStream_eq reader w vernKey, reverseIndexKey_eq_reverse _, reverseIndexKey_fold _⟩

/-- C4: `Validate` succeeds exactly when every symbol of the key occurs in the
alphabet, and the error it returns names the first key symbol, in key order,
that is absent from the alphabet. -/
theorem validate_spec (vernKey : VernKey) :
    (Validate vernKey = none ↔ ∀ c ∈ vernKey.key.data, c ∈ vernKey.alphabet) ∧
    ∀ err, Validate vernKey = some err →
      ∃ pre c post, vernKey.key.data = pre ++ c :: post ∧ (∀ x ∈ pre, x ∈ vernKey.alphabet) ∧
        c ∉ vernKey.alphabet ∧ err = keyMemberError c := by
  refine ⟨validate_none_iff vernKey, ?_⟩
  intro err h
  obtain ⟨pre, c, post, h1, h2, h3, h4⟩ := validateLoop_some _ _ err h
  rw [rangeString_snd] at h1
  simp only [mem_foldl_store, List.not_mem_nil, false_or] at h2 h3
  exact ⟨pre, c, post, h1, h2, h3, h4⟩

/-- C4, witness: with alphabet A, B, C, D the key AB is accepted and the key
AXBY is rejected with the error naming X. -/
theorem validate_spec_witness :
    Validate abcd = none ∧
    Validate { abcd with key := "AXBY" } = some (keyMemberError 'X') ∧
    ∃ pre c post, "AXBY".data = pre ++ c :: post ∧ (∀ x ∈ pre, x ∈ abcd.alphabet) ∧
      c ∉ abcd.alphabet ∧ keyMemberError 'X' = keyMemberError c :=
  ⟨by decide, by decide,
    (validate_spec { abcd with key := "AXBY" }).2 (keyMemberError 'X') (by decide)⟩

/-- C5: `RuneToIndex` returns, for a symbol of the alphabet, the position of its
first occurrence with no error; it returns an error exactly when the symbol is
nowhere in the alphabet, and then the index is `-1`. -/
theorem runeToIndex_spec (vernKey : VernKey) (rl : Rune) :
    (rl ∈ vernKey.alphabet →
      ∃ i : Nat, RuneToIndex vernKey rl = ((i : Int), none) ∧ i < vernKey.alphabet.length ∧
        vernKey.alphabet.get? i = some rl ∧ ∀ j, j < i → vernKey.alphabet.get? j ≠ some rl) ∧
    ((RuneToIndex vernKey rl).2 ≠ none ↔ rl ∉ vernKey.alphabet) ∧
    (rl ∉ vernKey.alphabet → RuneToIndex vernKey rl = (-1, some (letterError rl))) :=
  ⟨runeToIndex_of_mem vernKey rl, runeToIndex_err_iff vernKey rl,
    runeToIndex_of_not_mem vernKey rl⟩

/-- C5, witness: in the alphabet A, B, A, C the symbol A is found at position
0, its first occurrence. -/
theorem runeToIndex_spec_witness :
    RuneToIndex { alphabet := ['A', 'B', 'A', 'C'], key := "" } 'A' = (0, none) ∧
    RuneToIndex { alphabet := ['A', 'B', 'A', 'C'], key := "" } 'C' = (3, none) ∧
    ∃ i : Nat, RuneToIndex { alphabet := ['A', 'B', 'A', 'C'], key := "" } 'A' = ((i : Int), none) ∧
      i < ['A', 'B', 'A', 'C'].length ∧ ['A', 'B', 'A', 'C'].get? i = some 'A' ∧
      ∀ j, j < i → ['A', 'B', 'A', 'C'].get? j ≠ some 'A' :=
  ⟨by decide, by decide,
    (runeToIndex_spec { alphabet := ['A', 'B', 'A', 'C'], key := "" } 'A').1 (by decide)⟩

/-- C6, the code at a line holding a symbol outside the alphabet (alphabet A,
B, C, D; key AB; input CXB): `RuneToIndex` reports the letter X, yet
`EncodeStream` and `DecodeStream` return `nil`, having buffered D and written
no line terminator, and the run exits with code 0 and an empty output. On a
reader that delivers runes only, no call ever returns an error. -/
theorem encodeStream_bad_symbol_returns_nil :
    RuneToIndex abcd 'X' = (-1, some (letterError 'X')) ∧
    EncodeStream (readerOf ['C', 'X', 'B', newline]) Writer.new abcd
      = { reader := readerOf ['B', newline],
          writer := { buf := ['D'], out := [], flushes := 0 },
          outcome := Outcome.returned none } ∧
    DecodeStream (readerOf ['C', 'X', 'B', newline]) Writer.new abcd
      = { reader := readerOf ['B', newline],
          writer := { buf := ['D'], out := [], flushes := 0 },
          outcome := Outcome.returned none } ∧
    main (.ok abcdFile) false (readerOf ['C', 'X', 'B', newline])
      = { stdout := [], stderr := [], code := 0 } ∧
    ∀ (s : List Rune) (w : Writer) (vernKey : VernKey) (err : GoError),
      (EncodeStream (readerOf s) w vernKey).outcome ≠ Outcome.returned (some err) ∧
      (DecodeStream (readerOf s) w vernKey).outcome ≠ Outcome.returned (some err) :=
  ⟨by decide, by decide, by decide, by decide,
    fun s w vernKey err =>
      ⟨streamLoop_never_error vernKey _ s w err, streamLoop_never_error vernKey _ s w err⟩⟩

/-- C7: index safety. For every alphabet of power-of-two length, every key
accepted by `Validate` and every symbol of the alphabet, the index that
`EncodeStream`, and likewise `DecodeStream`, passes to `IndexToRune` lies in
`[0, len(alphabet))`, and the lookup does not panic. -/
theorem index_in_range (vernKey : VernKey) (k : Nat) (c : Rune)
    (hpow : vernKey.alphabet.length = 2 ^ k) (hval : Validate vernKey = none)
    (hc : c ∈ vernKey.alphabet) :
    (0 ≤ xorFold (buildIndexKey vernKey) (RuneToIndex vernKey c).1 ∧
      xorFold (buildIndexKey vernKey) (RuneToIndex vernKey c).1 < (vernKey.alphabet.length : Int) ∧
      (IndexToRune vernKey (xorFold (buildIndexKey vernKey) (RuneToIndex vernKey c).1)).isSome) ∧
    (0 ≤ xorFold (reverseIndexKey (buildIndexKey vernKey)) (RuneToIndex vernKey c).1 ∧
      xorFold (reverseIndexKey (buildIndexKey vernKey)) (RuneToIndex vernKey c).1
        < (vernKey.alphabet.length : Int) ∧
      (IndexToRune vernKey
        (xorFold (reverseIndexKey (buildIndexKey vernKey)) (RuneToIndex vernKey c).1)).isSome) := by
  have hkey := (validate_none_iff vernKey).1 hval
  have h := xor_inRange k _ _ (runeToIndex_inRange vernKey k hpow c hc)
    (keyFold_inRange vernKey k hpow hkey)
  have hlt : Int.xor (RuneToIndex vernKey c).1 (keyFold vernKey) < (vernKey.alphabet.length : Int) := by
    rw [hpow]
    exact_mod_cast h.2
  obtain ⟨y, hy, _⟩ := indexToRune_of_inRange vernKey _ ⟨h.1, hlt⟩
  rw [reverseIndexKey_fold, xorFold_eq, buildIndexKey_fold]
  exact ⟨⟨h.1, hlt, by rw [hy]; rfl⟩, ⟨h.1, hlt, by rw [hy]; rfl⟩⟩

/-- C7, witness: alphabet A, B, C, D with key AB and the symbol C, whose index
2 is folded to 3. -/
theorem index_in_range_witness :
    abcd.alphabet.length = 2 ^ 2 ∧ Validate abcd = none ∧ 'C' ∈ abcd.alphabet ∧
    xorFold (buildIndexKey abcd) (RuneToIndex abcd 'C').1 = 3 ∧
    (0 ≤ xorFold (reverseIndexKey (buildIndexKey abcd)) (RuneToIndex abcd 'C').1 ∧
      xorFold (reverseIndexKey (buildIndexKey abcd)) (RuneToIndex abcd 'C').1
        < (abcd.alphabet.length : Int) ∧
      (IndexToRune abcd
        (xorFold (reverseIndexKey (buildIndexKey abcd)) (RuneToIndex abcd 'C').1)).isSome) :=
  ⟨by decide, by decide, by decide, by decide,
    (index_in_range abcd 2 'C' (by decide) (by decide) (by decide)).2⟩

/-- C8 (as amended): one line per run. When the key file is read and
validated and the input starts with a line of alphabet symbols whose
substitutes `ys` exist, a run in either mode writes `ys` and one line
terminator and exits with code 0, whatever follows the first line terminator;
the call leaves everything after that terminator unread. -/
theorem main_first_line_only (keyMap : KeyMap) (decode : Bool) (line ys : List Rune)
    (rest : Reader)
    (hval : Validate { alphabet := keyMap.alphabet.map firstRune, key := keyMap.key } = none)
    (hline : ∀ c ∈ line, c ∈ keyMap.alphabet.map firstRune ∧ c ≠ newline)
    (hys : line.map (substitute { alphabet := keyMap.alphabet.map firstRune, key := keyMap.key })
      = ys.map some)
    (hrest : atLineEnd rest) :
    main (.ok keyMap) decode (readerOf line ++ rest)
      = { stdout := ys ++ [newline], stderr := [], code := 0 } ∧
    (EncodeStream (readerOf line ++ rest) Writer.new
      { alphabet := keyMap.alphabet.map firstRune, key := keyMap.key }).reader = rest.tail ∧
    (DecodeStream (readerOf line ++ rest) Writer.new
      { alphabet := keyMap.alphabet.map firstRune, key := keyMap.key }).reader = rest.tail := by
  have he := encodeStream_line _ line ys rest Writer.new hline hys hrest
  refine ⟨?_, by rw [he], by rw [decodeStream_eq, he]⟩
  simp only [main, ReadKey, hval, decodeStream_eq, ite_self, he]
  simp [Writer.new]

/-- C8, witness: alphabet A, B, C, D with key AB and the two input lines CAB
and AB: the run writes DBA and a line terminator, and the second line stays
unread. -/
theorem main_first_line_only_witness :
    Validate { alphabet := abcdFile.alphabet.map firstRune, key := abcdFile.key } = none ∧
    atLineEnd (readerOf [newline, 'A', 'B', newline]) ∧
    main (.ok abcdFile) false (readerOf ['C', 'A', 'B'] ++ readerOf [newline, 'A', 'B', newline])
      = { stdout := ['D', 'B', 'A'] ++ [newline], stderr := [], code := 0 } ∧
    (EncodeStream (readerOf ['C', 'A', 'B'] ++ readerOf [newline, 'A', 'B', newline]) Writer.new
      { alphabet := abcdFile.alphabet.map firstRune, key := abcdFile.key }).reader
        = (readerOf [newline, 'A', 'B', newline]).tail ∧
    (DecodeStream (readerOf ['C', 'A', 'B'] ++ readerOf [newline, 'A', 'B', newline]) Writer.new
      { alphabet := abcdFile.alphabet.map firstRune, key := abcdFile.key }).reader
        = (readerOf [newline, 'A', 'B', newline]).tail :=
  ⟨by decide, by decide,
    main_first_line_only abcdFile false ['C', 'A', 'B'] ['D', 'B', 'A']
      (readerOf [newline, 'A', 'B', newline]) (by decide) (by decide) (by decide) (by decide)⟩

/-- C8, counterexample: on the two input lines CAB and AB (alphabet A, B, C,
D; key AB) a run in either mode writes the transform of the first line only,
DBA, not the two transformed lines DBA and BA. -/
theorem main_second_line_not_written :
    main (.ok abcdFile) false (readerOf ['C', 'A', 'B', newline, 'A', 'B', newline])
      = { stdout := ['D', 'B', 'A', newline], stderr := [], code := 0 } ∧
    main (.ok abcdFile) true (readerOf ['C', 'A', 'B', newline, 'A', 'B', newline])
      = { stdout := ['D', 'B', 'A', newline], stderr := [], code := 0 } ∧
    (main (.ok abcdFile) false (readerOf ['C', 'A', 'B', newline, 'A', 'B', newline])).stdout
      ≠ ['D', 'B', 'A', newline, 'B', 'A', newline] := by
  decide

/-- C9 (as amended): empty input. On an exhausted reader `EncodeStream` and
`DecodeStream` write exactly one line terminator, flush and return no error,
and a run on an empty input writes that one line terminator and exits with
code 0. -/
theorem empty_input_writes_terminator (w : Writer) (vernKey : VernKey) :
    EncodeStream [] w vernKey
      = { reader := [],
          writer := { buf := [], out := w.out ++ (w.buf ++ [newline]), flushes := w.flushes + 1 },
          outcome := Outcome.returned none } ∧
    DecodeStream [] w vernKey
      = { reader := [],
          writer := { buf := [], out := w.out ++ (w.buf ++ [newline]), flushes := w.flushes + 1 },
          outcome := Outcome.returned none } ∧
    (Validate vernKey = none → ∀ (keyMap : KeyMap) (decode : Bool),
      ReadKey (.ok keyMap) = .ok vernKey →
        main (.ok keyMap) decode [] = { stdout := [newline], stderr := [], code := 0 }) := by
  have he : EncodeStream [] w vernKey
      = { reader := [],
          writer := { buf := [], out := w.out ++ (w.buf ++ [newline]), flushes := w.flushes + 1 },
          outcome := Outcome.returned none } := by
    simp [EncodeStream, streamLoop, finishLine_eq, Writer.written]
  refine ⟨he, by rw [decodeStream_eq, he], ?_⟩
  intro hval keyMap decode hk
  simp only [main, hk, hval, decodeStream_eq, ite_self]
  simp [EncodeStream, streamLoop, finishLine_eq, Writer.written, Writer.new]

/-- C9, witness: the run on an empty input with alphabet A, B, C, D and key
AB. -/
theorem empty_input_writes_terminator_witness :
    Validate abcd = none ∧ ReadKey (.ok abcdFile) = .ok abcd ∧
    main (.ok abcdFile) false [] = { stdout := [newline], stderr := [], code := 0 } :=
  ⟨by decide, rfl,
    (empty_input_writes_terminator Writer.new abcd).2.2 (by decide) abcdFile false rfl⟩

/-- C9, counterexample: on an empty input (alphabet A, B, C, D; key AB)
`EncodeStream` and `DecodeStream` do write: the output is one line
terminator, not nothing. -/
theorem empty_input_output_not_empty :
    (EncodeStream [] Writer.new abcd).writer.out = [newline] ∧
    (DecodeStream [] Writer.new abcd).writer.out = [newline] ∧
    (EncodeStream [] Writer.new abcd).writer.out ≠ [] ∧
    (DecodeStream [] Writer.new abcd).writer.out ≠ [] ∧
    (EncodeStream [] Writer.new abcd).outcome = Outcome.returned none := by
  decide

/-- C10, the code at a call that returns `nil` without framing the line
(alphabet A, B, C, D; key AB; input AX and a line terminator): the call
returns `nil`, but reading stopped at X, before the line terminator, which
stays unread; no line terminator is written and the writer is never flushed,
so nothing reaches the output. -/
theorem nil_return_without_terminator :
    (EncodeStream (readerOf ['A', 'X', newline]) Writer.new abcd).outcome
      = Outcome.returned none ∧
    (EncodeStream (readerOf ['A', 'X', newline]) Writer.new abcd).reader
      = readerOf [newline] ∧
    (EncodeStream (readerOf ['A', 'X', newline]) Writer.new abcd).writer
      = { buf := ['B'], out := [], flushes := 0 } ∧
    DecodeStream (readerOf ['A', 'X', newline]) Writer.new abcd
      = EncodeStream (readerOf ['A', 'X', newline]) Writer.new abcd := by
  decide

/-! ## The shape of the offset sequence -/

theorem fillIndexKey_slots (vernKey : VernKey) (cs : List Char) (off : Nat) (pre : List Int)
    (hpre : pre.length = off) :
    fillIndexKey vernKey (rangeString cs off) (pre ++ List.replicate (strLen cs) 0)
      = pre ++ cs.flatMap (offsetSlots vernKey) := by
  induction cs generalizing off pre with
  | nil => simp [rangeString, fillIndexKey, strLen]
  | cons c t ih =>
    have hpos : 0 < c.utf8Size := Char.utf8Size_pos c
    have hs : strLen (c :: t) = (c.utf8Size - 1 + strLen t) + 1 := by
      simp only [strLen, List.map_cons, List.sum_cons]
      omega
    rw [hs, List.replicate_succ, List.replicate_add]
    simp only [rangeString, fillIndexKey]
    rw [set_mid pre 0 _ _ off hpre.symm]
    have e : pre ++ (RuneToIndex vernKey c).1
          :: (List.replicate (c.utf8Size - 1) 0 ++ List.replicate (strLen t) 0)
        = (pre ++ offsetSlots vernKey c) ++ List.replicate (strLen t) 0 := by
      simp [offsetSlots]
    rw [e, ih (off + c.utf8Size) (pre ++ offsetSlots vernKey c)
      (by simp only [offsetSlots, List.length_append, List.length_cons, List.length_replicate]
          omega)]
    simp [List.flatMap_cons]

/-- The offset sequence holds, for every key symbol in order, the slots of
that symbol. -/
theorem buildIndexKey_eq_bind (vernKey : VernKey) :
    buildIndexKey vernKey = vernKey.key.data.flatMap (offsetSlots vernKey) := by
  have h := fillIndexKey_slots vernKey vernKey.key.data 0 [] rfl
  simpa [buildIndexKey] using h

theorem bind_offsetSlots_single (vernKey : VernKey) (cs : List Char)
    (h : ∀ c ∈ cs, c.utf8Size = 1) :
    cs.flatMap (offsetSlots vernKey) = cs.map (fun c => (RuneToIndex vernKey c).1) := by
  induction cs with
  | nil => rfl
  | cons c t ih =>
    have hc := h c (List.mem_cons_self _ _)
    simp only [List.flatMap_cons, List.map_cons, offsetSlots, hc, Nat.sub_self, List.replicate_zero,
      List.singleton_append, ih (fun d hd => h d (List.mem_cons_of_mem _ hd))]

theorem streamLoop_bad_symbol (vernKey : VernKey) (ik : List Int) (bad : Rune) (rest : Reader)
    (w : Writer) (hbad : bad ∉ vernKey.alphabet) (hnl : bad ≠ newline) :
    streamLoop vernKey ik (ReadEvent.rune bad :: rest) w
      = { reader := rest, writer := w, outcome := Outcome.returned none } := by
  have herr := (runeToIndex_err_iff vernKey bad).2 hbad
  simp only [streamLoop, ReadEvent.result]
  rw [if_neg (by simp [hnl]), if_pos herr]

/-! ## Outside a power of two -/

theorem xor_two_pow_pred (k : Nat) : 2 ^ k ^^^ (2 ^ k - 1) = 2 ^ (k + 1) - 1 := by
  apply Nat.eq_of_testBit_eq
  intro i
  rw [Nat.testBit_xor, Nat.testBit_two_pow, Nat.testBit_two_pow_sub_one,
    Nat.testBit_two_pow_sub_one]
  by_cases h1 : k = i
  · subst h1; simp
  · by_cases h2 : i < k
    · have : i < k + 1 := by omega
      simp [h1, h2, this]
    · have : ¬ i < k + 1 := by omega
      simp [h1, h2, this]

theorem exists_pow_between (n : Nat) (h3 : 3 ≤ n) (hn : ∀ k, n ≠ 2 ^ k) :
    ∃ k, 2 ^ k < n ∧ n < 2 ^ (k + 1) := by
  refine ⟨Nat.log 2 n, ?_, Nat.lt_pow_succ_log_self (by norm_num) n⟩
  have h : 2 ^ Nat.log 2 n ≤ n := Nat.pow_log_le_self 2 (by omega)
  exact lt_of_le_of_ne h (fun e => hn _ e.symm)

/-! ## Lookup after lookup -/

theorem indexToRune_runeToIndex (vernKey : VernKey) (c : Rune) (hc : c ∈ vernKey.alphabet) :
    IndexToRune vernKey (RuneToIndex vernKey c).1 = some c := by
  obtain ⟨i, h1, _, h3, _⟩ := runeToIndex_of_mem vernKey c hc
  rw [h1]
  simp only [IndexToRune, Int.ofNat_nonneg, if_true, Int.toNat_ofNat]
  exact h3

theorem keyFold_empty (alphabet : List Rune) :
    keyFold { alphabet := alphabet, key := "" } = 0 := rfl

/-! ## The properties, continued -/

/-- C11: no rollback on a bad symbol. When the first symbol of the line that
is absent from the alphabet stands at position `p`, after the `p` symbols
`front` whose substitutes are `ys`, what `EncodeStream`, and likewise
`DecodeStream`, has written to the writer is what the writer held before
followed by exactly `ys`: nothing is written for the offending symbol or for
anything after it, and the call does not call `Flush`. -/
theorem bad_symbol_keeps_front (vernKey : VernKey) (front ys back : List Rune) (bad : Rune)
    (rest : Reader) (w : Writer)
    (hfront : ∀ c ∈ front, c ∈ vernKey.alphabet ∧ c ≠ newline)
    (hys : front.map (substitute vernKey) = ys.map some)
    (hbad : bad ∉ vernKey.alphabet) (hnl : bad ≠ newline) :
    (EncodeStream (readerOf (front ++ bad :: back) ++ rest) w vernKey).writer.written
      = w.written ++ ys ∧
    (DecodeStream (readerOf (front ++ bad :: back) ++ rest) w vernKey).writer.written
      = w.written ++ ys ∧
    (EncodeStream (readerOf (front ++ bad :: back) ++ rest) w vernKey).writer.flushes
      = w.flushes ∧
    (DecodeStream (readerOf (front ++ bad :: back) ++ rest) w vernKey).writer.flushes
      = w.flushes ∧
    (EncodeStream (readerOf (front ++ bad :: back) ++ rest) w vernKey).reader
      = readerOf back ++ rest ∧
    (DecodeStream (readerOf (front ++ bad :: back) ++ rest) w vernKey).reader
      = readerOf back ++ rest := by
  have hr : readerOf (front ++ bad :: back) ++ rest
      = readerOf front ++ ReadEvent.rune bad :: (readerOf back ++ rest) := by
    simp [readerOf]
  have he : EncodeStream (readerOf (front ++ bad :: back) ++ rest) w vernKey
      = { reader := readerOf back ++ rest, writer := w.writeAll ys,
          outcome := Outcome.returned none } := by
    rw [hr]
    unfold EncodeStream
    rw [streamLoop_line vernKey _ front ys _ w hfront
      (by
        rw [← hys]
        apply List.map_congr_left
        intro c _
        simp only [substitute]
        rw [xorFold_eq, buildIndexKey_fold]),
      streamLoop_bad_symbol vernKey _ bad _ _ hbad hnl]
  rw [decodeStream_eq, he]
  exact ⟨written_writeAll w ys, written_writeAll w ys, flushes_writeAll w ys,
    flushes_writeAll w ys, rfl, rfl⟩

/-- C11, witness: alphabet A, B, C, D with key AB and the line CAXB: the
writer holds DB, the substitutes of CA, and nothing else. -/
theorem bad_symbol_keeps_front_witness :
    'X' ∉ abcd.alphabet ∧
    (EncodeStream (readerOf (['C', 'A'] ++ 'X' :: ['B']) ++ readerOf [newline]) Writer.new
        abcd).writer = { buf := ['D', 'B'], out := [], flushes := 0 } ∧
    (EncodeStream (readerOf (['C', 'A'] ++ 'X' :: ['B']) ++ readerOf [newline]) Writer.new
        abcd).writer.written = Writer.new.written ++ ['D', 'B'] :=
  ⟨by decide, by decide,
    (bad_symbol_keeps_front abcd ['C', 'A'] ['D', 'B'] ['B'] 'X' (readerOf [newline]) Writer.new
      (by decide) (by decide) (by decide) (by decide)).1⟩

/-- C12 (as amended): `Validate` does not look at the length of the alphabet.
A key configuration whose alphabet length is not a power of two is accepted
exactly when every key symbol occurs in the alphabet. -/
theorem validate_ignores_alphabet_length (vernKey : VernKey)
    (_hlen : ∀ k : Nat, vernKey.alphabet.length ≠ 2 ^ k) :
    Validate vernKey = none ↔ ∀ c ∈ vernKey.key.data, c ∈ vernKey.alphabet :=
  validate_none_iff vernKey

/-- C12, witness: the alphabet A, B, C of length three with key AB. -/
theorem validate_ignores_alphabet_length_witness :
    (∀ k : Nat, ['A', 'B', 'C'].length ≠ 2 ^ k) ∧
    (Validate { alphabet := ['A', 'B', 'C'], key := "AB" } = none ↔
      ∀ c ∈ "AB".data, c ∈ ['A', 'B', 'C']) :=
  have h : ∀ k : Nat, ['A', 'B', 'C'].length ≠ 2 ^ k := by
    intro k e
    rcases k with _ | _ | k
    · simp at e
    · simp at e
    · have h1 : 1 ≤ 2 ^ k := Nat.one_le_two_pow
      rw [pow_succ, pow_succ] at e
      simp only [List.length_cons, List.length_nil] at e
      omega
  ⟨h, validate_ignores_alphabet_length { alphabet := ['A', 'B', 'C'], key := "AB" } h⟩

/-- C12, counterexample: the alphabet A, B, C has length three, not a power of
two, and `Validate` accepts it with the key AB. -/
theorem validate_accepts_three_symbols :
    ['A', 'B', 'C'].length = 3 ∧ 2 ^ 1 < 3 ∧ 3 < 2 ^ 2 ∧
    Validate { alphabet := ['A', 'B', 'C'], key := "AB" } = none := by
  decide

/-- C13 (as amended): the offset sequence has one entry per key byte. It is
the concatenation, over the key symbols in order, of the index of the symbol
followed by a zero for each further byte of its encoding; when every key symbol
is a single byte it has exactly one entry per key symbol, the i-th being
`RuneToIndex` of the i-th key symbol. -/
theorem indexKey_shape (vernKey : VernKey) :
    (buildIndexKey vernKey).length = strLen vernKey.key.data ∧
    buildIndexKey vernKey = vernKey.key.data.flatMap (offsetSlots vernKey) ∧
    ((∀ c ∈ vernKey.key.data, c.utf8Size = 1) →
      buildIndexKey vernKey = vernKey.key.data.map (fun c => (RuneToIndex vernKey c).1)) := by
  refine ⟨buildIndexKey_length vernKey, buildIndexKey_eq_bind vernKey, fun h => ?_⟩
  rw [buildIndexKey_eq_bind, bind_offsetSlots_single vernKey _ h]

/-- C13, witness: for alphabet A, B, C, D and key AB the offset sequence is
0, 1. -/
theorem indexKey_shape_witness :
    (∀ c ∈ abcd.key.data, c.utf8Size = 1) ∧
    buildIndexKey abcd = [0, 1] ∧
    buildIndexKey abcd = abcd.key.data.map (fun c => (RuneToIndex abcd c).1) :=
  ⟨by decide, by decide, (indexKey_shape abcd).2.2 (by decide)⟩

/-- C13, counterexample: the key éC (alphabet A, é, C, D) is accepted and has
two symbols, but the offset sequence has three entries, 1, 0, 2, and its
second entry is 0, not the index 2 of the second key symbol C. -/
theorem indexKey_has_entry_per_byte :
    Validate accentKey = none ∧ accentKey.key.data.length = 2 ∧
    buildIndexKey accentKey = [1, 0, 2] ∧ (buildIndexKey accentKey).length ≠ 2 ∧
    accentKey.key.data.get? 1 = some 'C' ∧ (RuneToIndex accentKey 'C').1 = 2 ∧
    (buildIndexKey accentKey).get? 1 = some 0 := by
  decide

/-- C14: the two lookups are mutually inverse. In every alphabet
`IndexToRune(RuneToIndex(s))` is `s` for every symbol `s` of the alphabet, and
in an alphabet of distinct symbols `RuneToIndex(IndexToRune(i))` is `i` for
every index `i` in `[0, len(alphabet))`. -/
theorem lookups_inverse (vernKey : VernKey) :
    (∀ s ∈ vernKey.alphabet, IndexToRune vernKey (RuneToIndex vernKey s).1 = some s) ∧
    (vernKey.alphabet.Nodup → ∀ i : Nat, i < vernKey.alphabet.length →
      ∃ c, IndexToRune vernKey (i : Int) = some c ∧
        RuneToIndex vernKey c = ((i : Int), none)) := by
  refine ⟨indexToRune_runeToIndex vernKey, ?_⟩
  intro hd i hi
  have hg : vernKey.alphabet.get? i = some (vernKey.alphabet.get ⟨i, hi⟩) := List.get?_eq_get hi
  refine ⟨vernKey.alphabet.get ⟨i, hi⟩, ?_, runeToIndex_get vernKey hd i _ hg⟩
  simp only [IndexToRune, Int.ofNat_nonneg, if_true, Int.toNat_ofNat]
  exact hg

/-- C14, witness: index 2 of the alphabet A, B, C, D. -/
theorem lookups_inverse_witness :
    abcd.alphabet.Nodup ∧ 2 < abcd.alphabet.length ∧
    IndexToRune abcd (RuneToIndex abcd 'C').1 = some 'C' ∧
    ∃ c, IndexToRune abcd ((2 : Nat) : Int) = some c ∧
      RuneToIndex abcd c = (((2 : Nat) : Int), none) :=
  ⟨by decide, by decide, by decide, (lookups_inverse abcd).2 (by decide) 2 (by decide)⟩

/-- C15 (as amended): alphabet construction. `ReadKey` builds, from every
list of entry strings, an alphabet of the same length and order whose i-th
symbol is the first code point of the i-th entry, the rest of the entry being
ignored, and the zero rune when the entry is the empty string; the key is the
configured string unchanged. -/
theorem readKey_alphabet (keyMap : KeyMap) :
    ∃ vernKey, ReadKey (.ok keyMap) = .ok vernKey ∧ vernKey.key = keyMap.key ∧
      vernKey.alphabet.length = keyMap.alphabet.length ∧
      (∀ (i : Nat) (entry : String), keyMap.alphabet.get? i = some entry →
        vernKey.alphabet.get? i = some (entry.data.head?.getD zeroRune)) ∧
      ∀ (c : Char) (tail : List Char), firstRune (String.mk (c :: tail)) = c := by
  refine ⟨{ alphabet := keyMap.alphabet.map firstRune, key := keyMap.key }, rfl, rfl,
    by simp, ?_, fun _ _ => rfl⟩
  intro i entry h
  simp only [List.get?_eq_getElem?] at h ⊢
  rw [List.getElem?_map, h]
  simp only [Option.map_some', Option.some.injEq, firstRune]
  cases entry.data <;> rfl

/-- C15, witness: the entries Ax, an empty string and BC give the alphabet A,
zero rune, B. -/
theorem readKey_alphabet_witness :
    ReadKey (.ok { alphabet := ["Ax", "", "BC"], key := "AB" })
      = .ok { alphabet := ['A', zeroRune, 'B'], key := "AB" } ∧
    ∃ vernKey, ReadKey (.ok { alphabet := ["Ax", "", "BC"], key := "AB" }) = .ok vernKey ∧
      vernKey.key = "AB" ∧ vernKey.alphabet.length = ["Ax", "", "BC"].length ∧
      (∀ (i : Nat) (entry : String), ["Ax", "", "BC"].get? i = some entry →
        vernKey.alphabet.get? i = some (entry.data.head?.getD zeroRune)) ∧
      ∀ (c : Char) (tail : List Char), firstRune (String.mk (c :: tail)) = c :=
  ⟨rfl, readKey_alphabet { alphabet := ["Ax", "", "BC"], key := "AB" }⟩

/-- C15, counterexample: the empty entry has no first code point, and
`ReadKey` puts the zero rune at its position. -/
theorem readKey_empty_entry_gives_zero_rune :
    ReadKey (.ok { alphabet := ["A", ""], key := "A" })
      = .ok { alphabet := ['A', zeroRune], key := "A" } ∧
    ("" : String).data.head? = none ∧
    ¬ ∃ c, ("" : String).data.head? = some c ∧ (['A', zeroRune] : List Rune).get? 1 = some c :=
  ⟨rfl, rfl, by simp⟩

/-- C16: validation agrees with lookup. Whenever `Validate` succeeds,
`RuneToIndex` returns, for every key symbol, no error and an index in
`[0, len(alphabet))`, and no entry of the offset sequence of `EncodeStream`, or
of the reversed one of `DecodeStream`, is negative, in particular none is -1. -/
theorem validate_implies_lookup (vernKey : VernKey) (hval : Validate vernKey = none) :
    (∀ c ∈ vernKey.key.data, (RuneToIndex vernKey c).2 = none ∧
      0 ≤ (RuneToIndex vernKey c).1 ∧
      (RuneToIndex vernKey c).1 < (vernKey.alphabet.length : Int)) ∧
    (∀ v ∈ buildIndexKey vernKey, 0 ≤ v ∧ v ≠ -1) ∧
    (∀ v ∈ reverseIndexKey (buildIndexKey vernKey), 0 ≤ v ∧ v ≠ -1) := by
  have hkey := (validate_none_iff vernKey).1 hval
  have h1 : ∀ c ∈ vernKey.key.data, (RuneToIndex vernKey c).2 = none ∧
      0 ≤ (RuneToIndex vernKey c).1 ∧
      (RuneToIndex vernKey c).1 < (vernKey.alphabet.length : Int) := by
    intro c hc
    obtain ⟨i, e, hi, _⟩ := runeToIndex_of_mem vernKey c (hkey c hc)
    rw [e]
    exact ⟨rfl, Int.ofNat_nonneg _, by show (i : Int) < _; exact_mod_cast hi⟩
  have h2 : ∀ v ∈ buildIndexKey vernKey, 0 ≤ v ∧ v ≠ -1 := by
    intro v hv
    rw [buildIndexKey_eq_bind] at hv
    obtain ⟨c, hc, hvc⟩ := List.mem_flatMap.1 hv
    have h0 : 0 ≤ v := by
      rcases List.mem_cons.1 hvc with e | e
      · rw [e]; exact (h1 c hc).2.1
      · rw [(List.mem_replicate.1 e).2]
    exact ⟨h0, by omega⟩
  refine ⟨h1, h2, ?_⟩
  intro v hv
  rw [reverseIndexKey_eq_reverse] at hv
  exact h2 v (List.mem_reverse.1 hv)

/-- C16, witness: alphabet A, B, C, D with key AB. -/
theorem validate_implies_lookup_witness :
    Validate abcd = none ∧ buildIndexKey abcd = [0, 1] ∧
    ∀ v ∈ buildIndexKey abcd, 0 ≤ v ∧ v ≠ -1 :=
  ⟨by decide, by decide, (validate_implies_lookup abcd (by decide)).2.1⟩

/-- C17: a power of two is necessary. For every alphabet of distinct symbols
whose length is at least 3 and not a power of two there are a key accepted by
`Validate` and a symbol of the alphabet for which the index `EncodeStream`
computes, the symbol index combined with the key fold, is at least the length
of the alphabet, so that the lookup of `IndexToRune` is out of range. -/
theorem power_of_two_necessary (alphabet : List Rune) (hd : alphabet.Nodup)
    (h3 : 3 ≤ alphabet.length) (hn : ∀ k : Nat, alphabet.length ≠ 2 ^ k) :
    ∃ (key : String) (c : Rune), c ∈ alphabet ∧
      Validate { alphabet := alphabet, key := key } = none ∧
      xorFold (buildIndexKey { alphabet := alphabet, key := key })
          (RuneToIndex { alphabet := alphabet, key := key } c).1
        = Int.xor (RuneToIndex { alphabet := alphabet, key := key } c).1
            (keyFold { alphabet := alphabet, key := key }) ∧
      (alphabet.length : Int) ≤ xorFold (buildIndexKey { alphabet := alphabet, key := key })
          (RuneToIndex { alphabet := alphabet, key := key } c).1 ∧
      IndexToRune { alphabet := alphabet, key := key }
        (xorFold (buildIndexKey { alphabet := alphabet, key := key })
          (RuneToIndex { alphabet := alphabet, key := key } c).1) = none := by
  obtain ⟨k, hlo, hhi⟩ := exists_pow_between alphabet.length h3 hn
  have hpos : 0 < 2 ^ k := Nat.one_le_two_pow
  have hb : 2 ^ k - 1 < alphabet.length := by omega
  have hga : alphabet.get? (2 ^ k) = some (alphabet.get ⟨2 ^ k, hlo⟩) := List.get?_eq_get hlo
  have hgb : alphabet.get? (2 ^ k - 1) = some (alphabet.get ⟨2 ^ k - 1, hb⟩) :=
    List.get?_eq_get hb
  refine ⟨String.mk [alphabet.get ⟨2 ^ k, hlo⟩], alphabet.get ⟨2 ^ k - 1, hb⟩,
    List.get_mem _ _ _, ?_, ?_, ?_, ?_⟩
  · rw [validate_none_iff]
    intro c hc
    rw [List.mem_singleton.1 hc]
    exact List.get_mem _ _ _
  · rw [xorFold_eq, buildIndexKey_fold]
  all_goals
    have ea := runeToIndex_get { alphabet := alphabet, key := String.mk [alphabet.get ⟨2 ^ k, hlo⟩] }
      hd _ _ hga
    have eb := runeToIndex_get { alphabet := alphabet, key := String.mk [alphabet.get ⟨2 ^ k, hlo⟩] }
      hd _ _ hgb
    have hfold : keyFold { alphabet := alphabet, key := String.mk [alphabet.get ⟨2 ^ k, hlo⟩] }
        = ((2 ^ k : Nat) : Int) := by
      simp only [keyFold, List.map_cons, List.map_nil, ea, xorFold_cons_zero, xorFold_nil,
        int_xor_zero]
    have hval : xorFold (buildIndexKey
          { alphabet := alphabet, key := String.mk [alphabet.get ⟨2 ^ k, hlo⟩] })
          (RuneToIndex { alphabet := alphabet, key := String.mk [alphabet.get ⟨2 ^ k, hlo⟩] }
            (alphabet.get ⟨2 ^ k - 1, hb⟩)).1
        = ((2 ^ (k + 1) - 1 : Nat) : Int) := by
      rw [xorFold_eq, buildIndexKey_fold, hfold, eb]
      show Int.xor ((2 ^ k - 1 : Nat) : Int) ((2 ^ k : Nat) : Int) = _
      rw [int_xor_natCast, Nat.xor_comm, xor_two_pow_pred]
    rw [hval]
  · exact_mod_cast (by omega : alphabet.length ≤ 2 ^ (k + 1) - 1)
  · simp only [IndexToRune, Int.ofNat_nonneg, if_true, Int.toNat_ofNat]
    exact List.get?_eq_none.2 (by omega)

/-- C17, witness: the alphabet A, B, C of length three. -/
theorem power_of_two_necessary_witness :
    (['A', 'B', 'C'] : List Rune).Nodup ∧ 3 ≤ (['A', 'B', 'C'] : List Rune).length ∧
    xorFold (buildIndexKey { alphabet := ['A', 'B', 'C'], key := "C" })
      (RuneToIndex { alphabet := ['A', 'B', 'C'], key := "C" } 'B').1 = 3 ∧
    IndexToRune { alphabet := ['A', 'B', 'C'], key := "C" } 3 = none ∧
    ∃ (key : String) (c : Rune), c ∈ (['A', 'B', 'C'] : List Rune) ∧
      Validate { alphabet := ['A', 'B', 'C'], key := key } = none ∧
      xorFold (buildIndexKey { alphabet := ['A', 'B', 'C'], key := key })
          (RuneToIndex { alphabet := ['A', 'B', 'C'], key := key } c).1
        = Int.xor (RuneToIndex { alphabet := ['A', 'B', 'C'], key := key } c).1
            (keyFold { alphabet := ['A', 'B', 'C'], key := key }) ∧
      ((['A', 'B', 'C'] : List Rune).length : Int)
        ≤ xorFold (buildIndexKey { alphabet := ['A', 'B', 'C'], key := key })
          (RuneToIndex { alphabet := ['A', 'B', 'C'], key := key } c).1 ∧
      IndexToRune { alphabet := ['A', 'B', 'C'], key := key }
        (xorFold (buildIndexKey { alphabet := ['A', 'B', 'C'], key := key })
          (RuneToIndex { alphabet := ['A', 'B', 'C'], key := key } c).1) = none :=
  ⟨by decide, by decide, by decide, by decide,
    power_of_two_necessary ['A', 'B', 'C'] (by decide) (by decide)
      (by
        intro k e
        rcases k with _ | _ | k
        · simp at e
        · simp at e
        · have h1 : 1 ≤ 2 ^ k := Nat.one_le_two_pow
          rw [pow_succ, pow_succ] at e
          simp only [List.length_cons, List.length_nil] at e
          omega)⟩

/-- C18: the empty key. For every alphabet `Validate` accepts the empty key,
and with the empty key `EncodeStream` writes every line of alphabet symbols
back unchanged, followed by the line terminator. -/
theorem empty_key_is_identity (alphabet : List Rune) :
    Validate { alphabet := alphabet, key := "" } = none ∧
    ∀ (line : List Rune) (rest : Reader) (w : Writer),
      (∀ c ∈ line, c ∈ alphabet ∧ c ≠ newline) → atLineEnd rest →
        EncodeStream (readerOf line ++ rest) w { alphabet := alphabet, key := "" }
          = { reader := rest.tail,
              writer := { buf := [], out := w.out ++ (w.buf ++ line ++ [newline]),
                          flushes := w.flushes + 1 },
              outcome := Outcome.returned none } := by
  refine ⟨(validate_none_iff _).2 (fun c hc => absurd hc (List.not_mem_nil c)), ?_⟩
  intro line rest w hline hrest
  refine encodeStream_line _ line line rest w hline ?_ hrest
  rw [List.map_congr_left]
  intro c hc
  simp only [substitute, keyFold_empty, int_xor_zero]
  exact indexToRune_runeToIndex { alphabet := alphabet, key := "" } c (hline c hc).1

/-- C18, witness: the alphabet A, B, C with the empty key writes the line CAB
back. -/
theorem empty_key_is_identity_witness :
    Validate { alphabet := ['A', 'B', 'C'], key := "" } = none ∧
    EncodeStream (readerOf ['C', 'A', 'B'] ++ []) Writer.new { alphabet := ['A', 'B', 'C'], key := "" }
      = { reader := ([] : Reader).tail,
          writer := { buf := [],
                      out := Writer.new.out ++ (Writer.new.buf ++ ['C', 'A', 'B'] ++ [newline]),
                      flushes := Writer.new.flushes + 1 },
          outcome := Outcome.returned none } :=
  ⟨by decide,
    (empty_key_is_identity ['A', 'B', 'C']).2 ['C', 'A', 'B'] [] Writer.new (by decide) trivial⟩

end Vernam
